import Mathlib

/-!
# Connection pool (`main.go`)

A shallow embedding of the bounded connection pool of `main.go`
(`newConn`, `NewCPool`, `cpool.Close`, `cpool.Get`, `cpool.Put`) and the
properties of it that can be proved.

Modelling decisions.

* A `*sql.DB` handle is the index of the `sql.Open` call that produced it, so
  two calls never give the same handle.  Whether a given `sql.Open` call
  succeeds is outside the program; it is the parameter `openOk`.
* A `*conn` is `Option Conn`: `none` is the nil pointer, `some c` points to
  the struct `c`, whose `addr` is the index of its allocation (`&conn{...}`).
* The buffered channel `chan interface{}` only ever carries `nil`, so its
  buffer is the number of buffered values.
* The `[]*conn` slice is a list: `conns[0]` is the head, `conns[1:]` the tail,
  `append` adds at the end.
* A call either returns, panics or cannot proceed (blocks); `Outcome` records
  which, together with the state at that point.
* `pool.mu` is a flag, set while the mutex is held.  The two locked sections
  are atomic, so the flag is clear between steps; the one way it stays set is
  the index panic inside `Get`, which no `Unlock` follows.
* The platform is a 64-bit one: `make` refuses a slice or a channel that would
  take more than `maxAlloc` bytes.  Running out of memory below that bound is
  outside the model.
-/

namespace ConnectionPooling

/-- Handle of a `*sql.DB`: the index of the `sql.Open` call that made it. -/
abbrev DB := Nat

/-- The struct `conn` (main.go:31-33) together with the identity of its
allocation. -/
structure Conn where
  addr : Nat
  db : DB
deriving DecidableEq

/-- A `*conn`; `none` is nil. -/
abbrev ConnPtr := Option Conn

/-- A Go `error` value; `none` is nil. -/
abbrev error := Option String

/-- The run-time panics the pool code can raise. -/
inductive PanicKind where
  | openFailed
  | sliceCapOutOfRange
  | chanSizeOutOfRange
  | closeOfClosedChannel
  | sendOnClosedChannel
  | indexOutOfRange
  | nilDereference
deriving DecidableEq

/-- How a call ends: it returns `a`, it panics, or it blocks (it cannot go on
unless another goroutine acts); `s` is the state at that point. -/
inductive Outcome (σ α : Type) where
  | ret (a : α) (s : σ)
  | panicked (k : PanicKind) (s : σ)
  | blocked (s : σ)
deriving DecidableEq

/-- A buffered channel of `nil` values: capacity, number of buffered values,
and whether `close` has been called on it. -/
structure Chan where
  cap : Nat
  buf : Nat
  closed : Bool
deriving DecidableEq

/-- Result of one channel operation. -/
inductive ChanResult where
  | ok (ch : Chan)
  | wouldBlock
  | panics (k : PanicKind)
deriving DecidableEq

/-- Send `ch <- nil` while no receiver is parked on the channel: panics on a
closed channel, buffers the value when there is room, blocks otherwise.  The
send that meets a parked receiver is `Chan.handOff`. -/
def Chan.send (ch : Chan) : ChanResult :=
  if ch.closed then .panics .sendOnClosedChannel
  else if ch.buf < ch.cap then .ok { ch with buf := ch.buf + 1 }
  else .wouldBlock

/-- Receive `<-ch`: takes a buffered value when there is one; on an empty
closed channel yields the zero value at once; blocks otherwise, until a send
hands it a value (`Chan.handOff`). -/
def Chan.recv (ch : Chan) : ChanResult :=
  if 0 < ch.buf then .ok { ch with buf := ch.buf - 1 }
  else if ch.closed then .ok ch
  else .wouldBlock

/-- Send `ch <- nil` while a receiver is parked on the channel, which takes
the value directly and completes its receive: panics on a closed channel; the
buffer, empty before (a receiver parks on an empty buffer only), stays empty.
On a non-empty buffer no receiver is parked and there is nothing to hand
over. -/
def Chan.handOff (ch : Chan) : ChanResult :=
  if ch.closed then .panics .sendOnClosedChannel
  else if ch.buf = 0 then .ok ch
  else .wouldBlock

/-- The builtin `close(ch)`: panics when the channel is already closed. -/
def Chan.close (ch : Chan) : ChanResult :=
  if ch.closed then .panics .closeOfClosedChannel
  else .ok { ch with closed := true }

/-- The struct `cpool` (main.go:35-40); `mu` is true while the mutex is
held. -/
structure cpool where
  mu : Bool
  channel : Chan
  conns : List ConnPtr
  maxConn : Int
deriving DecidableEq

/-- What the pool code does to the outside: `opens` counts the `sql.Open`
calls (one per `newConn` call), `allocs` the `conn` structs allocated,
`dbClosed` logs every `db.Close()` call, oldest first. -/
structure World where
  opens : Nat
  allocs : Nat
  dbClosed : List DB
deriving DecidableEq

/-- A pool together with the outside world. -/
structure Sys where
  pool : cpool
  world : World
deriving DecidableEq

/-- The function `newConn` (main.go:12-29): one `sql.Open` call; panics when
it reports an error, returns the fresh handle otherwise. -/
def newConn (openOk : Nat → Bool) (w : World) : Outcome World DB :=
  let w1 : World := { w with opens := w.opens + 1 }
  if openOk w.opens then .ret w.opens w1 else .panicked .openFailed w1

/-- The loop of `NewCPool` (main.go:51-54) with `k` iterations left: make a
connection, wrap it in a fresh `conn`, append it, send one token. -/
def NewCPool.loop (openOk : Nat → Bool) : Nat → cpool → World → Outcome World cpool
  | 0, pool, w => .ret pool w
  | k + 1, pool, w =>
    match newConn openOk w with
    | .ret db w1 =>
      let c : Conn := { addr := w1.allocs, db := db }
      let w2 : World := { w1 with allocs := w1.allocs + 1 }
      let pool1 : cpool := { pool with conns := pool.conns ++ [some c] }
      match pool1.channel.send with
      | .ok ch => NewCPool.loop openOk k { pool1 with channel := ch } w2
      | .wouldBlock => .blocked w2
      | .panics pk => .panicked pk w2
    | .panicked pk w1 => .panicked pk w1
    | .blocked w1 => .blocked w1

/-- The bound `maxAlloc` of the Go runtime on the memory one allocation may
take, on a 64-bit platform (48 address bits). -/
def maxAlloc : Nat := 2 ^ 48

/-- Size in bytes of a pointer; an `interface{}` value takes two. -/
def ptrSize : Nat := 8

/-- Size in bytes of the channel header `hchan` that `make(chan ...)` allocates
with the buffer (96 on a 64-bit platform; releases that add a field to the
header take 8 or 16 more, which lowers the largest accepted size by one). -/
def hchanSize : Nat := 96

/-- The capacities for which both `make` calls of `NewCPool` go through:
`make([]*conn, 0, n)` needs `ptrSize * n` bytes within `maxAlloc`, and
`make(chan interface{}, n)` needs `2 * ptrSize * n` bytes within
`maxAlloc - hchanSize`. -/
abbrev makeAccepts (n : Nat) : Prop :=
  ptrSize * n ≤ maxAlloc ∧ 2 * ptrSize * n ≤ maxAlloc - hchanSize

/-- The function `NewCPool` (main.go:42-57).  The fields of the literal are
evaluated in order: `make([]*conn, 0, maxConn)` panics on a negative capacity
and on one whose slice would exceed `maxAlloc`, then
`make(chan interface{}, maxConn)` panics on a size whose buffer would not fit
(every value a 64-bit `int` cannot hold is among those refused).  Otherwise
the loop runs `maxConn` times and the pool is returned with a nil error. -/
def NewCPool (openOk : Nat → Bool) (maxConn : Int) (w : World) :
    Outcome World (cpool × error) :=
  if maxConn < 0 ∨ maxAlloc < ptrSize * maxConn.toNat then .panicked .sliceCapOutOfRange w
  else if maxAlloc - hchanSize < 2 * ptrSize * maxConn.toNat then
    .panicked .chanSizeOutOfRange w
  else
    let pool : cpool :=
      { mu := false
        channel := { cap := maxConn.toNat, buf := 0, closed := false }
        conns := []
        maxConn := maxConn }
    match NewCPool.loop openOk maxConn.toNat pool w with
    | .ret pool1 w1 => .ret (pool1, none) w1
    | .panicked pk w1 => .panicked pk w1
    | .blocked w1 => .blocked w1

/-- The loop of `Close` (main.go:61-63) over the connections still to visit:
`pool.conns[i].db.Close()`. -/
def cpool.Close.loop : List ConnPtr → World → Outcome World Unit
  | [], w => .ret () w
  | none :: _, w => .panicked .nilDereference w
  | some c :: rest, w =>
    cpool.Close.loop rest { w with dbClosed := w.dbClosed ++ [c.db] }

/-- The method `Close` (main.go:59-64): close the channel, then close the
database of every connection in `pool.conns`. -/
def cpool.Close (s : Sys) : Outcome Sys Unit :=
  match s.pool.channel.close with
  | .panics pk => .panicked pk s
  | .wouldBlock => .blocked s
  | .ok ch =>
    let pool1 : cpool := { s.pool with channel := ch }
    match cpool.Close.loop pool1.conns s.world with
    | .ret _ w1 => .ret () { pool := pool1, world := w1 }
    | .panicked pk w1 => .panicked pk { pool := pool1, world := w1 }
    | .blocked w1 => .blocked { pool := pool1, world := w1 }

/-- First step of `Get` (main.go:67): `<-pool.channel`. -/
def cpool.recvToken (s : Sys) : Outcome Sys Unit :=
  match s.pool.channel.recv with
  | .ok ch => .ret () { s with pool := { s.pool with channel := ch } }
  | .wouldBlock => .blocked s
  | .panics pk => .panicked pk s

/-- Second step of `Get` (main.go:69-72): `pool.mu.Lock()`, which blocks
while the mutex is held, then `c := pool.conns[0]`,
`pool.conns = pool.conns[1:]` and `pool.mu.Unlock()`.  The index panics on an
empty slice, with the mutex still held: nothing unlocks it afterwards. -/
def cpool.dequeue (s : Sys) : Outcome Sys ConnPtr :=
  if s.pool.mu then .blocked s
  else
    match s.pool.conns with
    | [] => .panicked .indexOutOfRange { s with pool := { s.pool with mu := true } }
    | c :: rest => .ret c { s with pool := { s.pool with conns := rest } }

/-- The method `Get` (main.go:66-75): receive a token, dequeue the first
connection, return it with a nil error. -/
def cpool.Get (s : Sys) : Outcome Sys (ConnPtr × error) :=
  match cpool.recvToken s with
  | .ret _ s1 =>
    match cpool.dequeue s1 with
    | .ret c s2 => .ret (c, none) s2
    | .panicked pk s2 => .panicked pk s2
    | .blocked s2 => .blocked s2
  | .panicked pk s1 => .panicked pk s1
  | .blocked s1 => .blocked s1

/-- First step of `Put` (main.go:78-80): `pool.mu.Lock()`, which blocks while
the mutex is held, then `pool.conns = append(pool.conns, c)` and
`pool.mu.Unlock()`. -/
def cpool.enqueue (s : Sys) (c : ConnPtr) : Outcome Sys Unit :=
  if s.pool.mu then .blocked s
  else .ret () { s with pool := { s.pool with conns := s.pool.conns ++ [c] } }

/-- Second step of `Put` (main.go:82), `pool.channel <- nil`, when it meets a
`Get` parked in its receive (main.go:67): the value goes to that `Get`
directly. -/
def cpool.handOffToken (s : Sys) : Outcome Sys Unit :=
  match s.pool.channel.handOff with
  | .ok ch => .ret () { s with pool := { s.pool with channel := ch } }
  | .wouldBlock => .blocked s
  | .panics pk => .panicked pk s

/-- Second step of `Put` (main.go:82): `pool.channel <- nil`, no receiver
being parked on the channel. -/
def cpool.sendToken (s : Sys) : Outcome Sys Unit :=
  match s.pool.channel.send with
  | .ok ch => .ret () { s with pool := { s.pool with channel := ch } }
  | .wouldBlock => .blocked s
  | .panics pk => .panicked pk s

/-- The method `Put` (main.go:77-83): append the connection, then send one
token. -/
def cpool.Put (s : Sys) (c : ConnPtr) : Outcome Sys Unit :=
  match cpool.enqueue s c with
  | .ret _ s1 => cpool.sendToken s1
  | .panicked pk s1 => .panicked pk s1
  | .blocked s1 => .blocked s1

/-- `k` consecutive `Get` calls by one caller, collecting what each returns;
stops at the first call that does not return. -/
def cpool.GetN : Nat → Sys → Outcome Sys (List (ConnPtr × error))
  | 0, s => .ret [] s
  | k + 1, s =>
    match cpool.Get s with
    | .ret r s1 =>
      match cpool.GetN k s1 with
      | .ret rs s2 => .ret (r :: rs) s2
      | .panicked pk s2 => .panicked pk s2
      | .blocked s2 => .blocked s2
    | .panicked pk s1 => .panicked pk s1
    | .blocked s1 => .blocked s1

/-! ## Sequential use: whole calls, one after the other, each running alone -/

/-- A pool call made by a client. -/
inductive Op where
  | get
  | put (c : ConnPtr)
deriving DecidableEq

/-- The pool with the ghost list `lent` of the connections that `Get` has
handed out and that have not been put back since. -/
structure Seq where
  sys : Sys
  lent : List ConnPtr
deriving DecidableEq

/-- One completed call.  `get` must return; `put c` must honour the release
condition (`c` is lent out) and return. -/
def Seq.apply (s : Seq) : Op → Option Seq
  | .get =>
    match cpool.Get s.sys with
    | .ret r sys1 => some { sys := sys1, lent := r.1 :: s.lent }
    | _ => none
  | .put c =>
    if c ∈ s.lent then
      match cpool.Put s.sys c with
      | .ret _ sys1 => some { sys := sys1, lent := s.lent.erase c }
      | _ => none
    else none

/-- A finite sequence of completed calls. -/
def Seq.run : Seq → List Op → Option Seq
  | s, [] => some s
  | s, op :: ops =>
    match Seq.apply s op with
    | some s1 => Seq.run s1 ops
    | none => none

/-! ## Concurrent use: the atomic steps, interleaved -/

/-- The atomic steps of the two methods.  `handOff` is the send of a `Put`
and the receive of a parked `Get` happening as one step. -/
inductive Action where
  | getRecv
  | getDequeue
  | putAppend (c : ConnPtr)
  | putSend
  | handOff
deriving DecidableEq

/-- The pool shared by any number of goroutines: `lent` as in `Seq`, `inGet`
the number of `Get` calls that have received a token and not yet dequeued,
`inPut` the number of `Put` calls that have appended and not yet sent. -/
structure Conc where
  sys : Sys
  lent : List ConnPtr
  inGet : Nat
  inPut : Nat
deriving DecidableEq

/-- One atomic step of some goroutine.  A step is taken only when a call is
at that point (`getDequeue` needs a `Get` past its receive, `putSend` and
`handOff` a `Put` past its append, `putAppend c` a lent-out `c`) and when it
goes through.  Any number of goroutines may be about to call `Get`, so a
receiver for `handOff` is always at hand. -/
def Conc.step (s : Conc) : Action → Option Conc
  | .getRecv =>
    match cpool.recvToken s.sys with
    | .ret _ sys1 => some { s with sys := sys1, inGet := s.inGet + 1 }
    | _ => none
  | .getDequeue =>
    if 0 < s.inGet then
      match cpool.dequeue s.sys with
      | .ret c sys1 =>
        some { s with sys := sys1, lent := c :: s.lent, inGet := s.inGet - 1 }
      | _ => none
    else none
  | .putAppend c =>
    if c ∈ s.lent then
      match cpool.enqueue s.sys c with
      | .ret _ sys1 =>
        some { s with sys := sys1, lent := s.lent.erase c, inPut := s.inPut + 1 }
      | _ => none
    else none
  | .putSend =>
    if 0 < s.inPut then
      match cpool.sendToken s.sys with
      | .ret _ sys1 => some { s with sys := sys1, inPut := s.inPut - 1 }
      | _ => none
    else none
  | .handOff =>
    if 0 < s.inPut then
      match cpool.handOffToken s.sys with
      | .ret _ sys1 =>
        some { s with sys := sys1, inGet := s.inGet + 1, inPut := s.inPut - 1 }
      | _ => none
    else none

/-- A finite interleaving of atomic steps. -/
def Conc.run : Conc → List Action → Option Conc
  | s, [] => some s
  | s, a :: as =>
    match Conc.step s a with
    | some s1 => Conc.run s1 as
    | none => none

/-- The connections `NewCPool` creates from world `w`, in creation order. -/
def freshConns (w : World) (n : Nat) : List ConnPtr :=
  (List.range n).map fun i => some { addr := w.allocs + i, db := (w.opens + i : Nat) }

/-- A world in which nothing has happened yet. -/
def World.start : World := { opens := 0, allocs := 0, dbClosed := [] }

/-- Every `sql.Open` call succeeds. -/
def allOk : Nat → Bool := fun _ => true

/-- Every `sql.Open` call succeeds but the third. -/
def thirdFails : Nat → Bool := fun k => k != 2

/-- The pool `NewCPool` builds. -/
def builtPool (n : Nat) (w : World) : cpool :=
  { mu := false
    channel := { cap := n, buf := n, closed := false }
    conns := freshConns w n
    maxConn := (n : Int) }

/-- The state of a freshly built pool of capacity `n`, nothing lent out and
no call in progress. -/
def Conc.init (n : Nat) (w : World) : Conc :=
  { sys := { pool := builtPool n w
             world := { opens := w.opens + n, allocs := w.allocs + n, dbClosed := w.dbClosed } }
    lent := []
    inGet := 0
    inPut := 0 }

/-- A sequential state seen as a concurrent one with no call in progress. -/
def Seq.toConc (s : Seq) : Conc :=
  { sys := s.sys, lent := s.lent, inGet := 0, inPut := 0 }

/-- The two atomic steps a completed call consists of. -/
def Op.actions : Op → List Action
  | .get => [.getRecv, .getDequeue]
  | .put c => [.putAppend c, .putSend]

/-- What holds of the pool of capacity `n` built in world `w0` as long as only
`Get` and `Put` act on it. -/
structure Inv (n : Nat) (w0 : World) (s : Conc) : Prop where
  unlocked : s.sys.pool.mu = false
  cap : s.sys.pool.channel.cap = n
  notClosed : s.sys.pool.channel.closed = false
  maxConn : s.sys.pool.maxConn = (n : Int)
  world : s.sys.world = w0
  tokens : s.sys.pool.channel.buf + s.inGet + s.inPut = s.sys.pool.conns.length
  total : s.lent.length + s.sys.pool.conns.length = n
  nodup : (s.lent ++ s.sys.pool.conns).Nodup

/-- The state after `k` consecutive `Get` calls that all went through. -/
def afterGets (k : Nat) (s : Sys) : Sys :=
  { pool := { mu := s.pool.mu
              channel := { s.pool.channel with buf := s.pool.channel.buf - k }
              conns := s.pool.conns.drop k
              maxConn := s.pool.maxConn }
    world := s.world }

/-! ## Construction -/

theorem freshConns_zero (w : World) : freshConns w 0 = [] := rfl

theorem freshConns_succ (w : World) (k : Nat) :
    freshConns w (k + 1) =
      some { addr := w.allocs, db := w.opens } ::
        freshConns { opens := w.opens + 1, allocs := w.allocs + 1, dbClosed := w.dbClosed } k := by
  simp only [freshConns, List.range_succ_eq_map, List.map_cons, List.map_map, Nat.add_zero]
  congr 1
  apply List.map_congr_left
  intro i _
  simp only [Function.comp, Nat.succ_eq_add_one, Option.some.injEq, Conn.mk.injEq]
  exact ⟨by rw [Nat.add_comm i 1, Nat.add_assoc], by rw [Nat.add_comm i 1, Nat.add_assoc]⟩

theorem freshConns_length (w : World) (n : Nat) : (freshConns w n).length = n := by
  simp [freshConns]

/-- What the loop of `NewCPool` returns, whenever it returns. -/
theorem NewCPool.loop_ret (openOk : Nat → Bool) :
    ∀ (k : Nat) (pool : cpool) (w : World) (p : cpool) (w1 : World),
      pool.channel.closed = false → pool.channel.buf + k ≤ pool.channel.cap →
      NewCPool.loop openOk k pool w = .ret p w1 →
      p = { mu := pool.mu
            channel := { pool.channel with buf := pool.channel.buf + k }
            conns := pool.conns ++ freshConns w k
            maxConn := pool.maxConn } ∧
      w1 = { opens := w.opens + k, allocs := w.allocs + k, dbClosed := w.dbClosed } ∧
      ∀ i, i < k → openOk (w.opens + i) = true := by
  intro k
  induction k with
  | zero =>
    intro pool w p w1 _ _ h
    simp only [NewCPool.loop, Outcome.ret.injEq] at h
    obtain ⟨rfl, rfl⟩ := h
    simp [freshConns_zero]
  | succ k ih =>
    intro pool w p w1 hc hb h
    cases hok : openOk w.opens with
    | false => simp [NewCPool.loop, newConn, hok] at h
    | true =>
      have hlt : pool.channel.buf < pool.channel.cap := by omega
      simp only [NewCPool.loop, newConn, hok, if_true, Chan.send, hc, Bool.false_eq_true,
        if_false, hlt] at h
      obtain ⟨hp, hw, hall⟩ := ih _ _ p w1 (by simp) (by simp; omega) h
      refine ⟨?_, ?_, ?_⟩
      · rw [hp, freshConns_succ]
        simp [Nat.add_assoc, Nat.add_comm 1 k, hc]
      · rw [hw]
        simp [Nat.add_assoc, Nat.add_comm 1 k]
      · intro i hi
        cases i with
        | zero => simpa using hok
        | succ j =>
          have := hall j (by omega)
          simpa [Nat.add_assoc, Nat.add_comm 1 j] using this

/-- The loop of `NewCPool` returns when every `sql.Open` call succeeds. -/
theorem NewCPool.loop_ok (openOk : Nat → Bool) :
    ∀ (k : Nat) (pool : cpool) (w : World),
      pool.channel.closed = false → pool.channel.buf + k ≤ pool.channel.cap →
      (∀ i, i < k → openOk (w.opens + i) = true) →
      ∃ p w1, NewCPool.loop openOk k pool w = .ret p w1 := by
  intro k
  induction k with
  | zero => intro pool w _ _ _; exact ⟨pool, w, rfl⟩
  | succ k ih =>
    intro pool w hc hb hall
    have hok : openOk w.opens = true := by simpa using hall 0 (by omega)
    have hlt : pool.channel.buf < pool.channel.cap := by omega
    simp only [NewCPool.loop, newConn, hok, if_true, Chan.send, hc, Bool.false_eq_true,
      if_false, hlt]
    apply ih
    · simp
    · simp; omega
    · intro i hi
      have := hall (i + 1) (by omega)
      simpa [Nat.add_assoc, Nat.add_comm 1 i] using this

/-- The loop of `NewCPool` panics in `newConn` at the first failing
`sql.Open` call, with nothing destroyed. -/
theorem NewCPool.loop_fail (openOk : Nat → Bool) :
    ∀ (k : Nat) (pool : cpool) (w : World) (j : Nat),
      pool.channel.closed = false → pool.channel.buf + k ≤ pool.channel.cap →
      j < k → (∀ i, i < j → openOk (w.opens + i) = true) → openOk (w.opens + j) = false →
      NewCPool.loop openOk k pool w =
        .panicked .openFailed
          { opens := w.opens + j + 1, allocs := w.allocs + j, dbClosed := w.dbClosed } := by
  intro k
  induction k with
  | zero => intro pool w j _ _ hj; omega
  | succ k ih =>
    intro pool w j hc hb hj hall hfail
    cases j with
    | zero =>
      have hok : openOk w.opens = false := by simpa using hfail
      simp [NewCPool.loop, newConn, hok]
    | succ j =>
      have hok : openOk w.opens = true := by simpa using hall 0 (by omega)
      have hlt : pool.channel.buf < pool.channel.cap := by omega
      simp only [NewCPool.loop, newConn, hok, if_true, Chan.send, hc, Bool.false_eq_true,
        if_false, hlt]
      rw [ih _ _ j (by simp) (by simp; omega) (by omega)]
      · simp [Nat.add_assoc, Nat.add_comm 1 j]
      · intro i hi
        have := hall (i + 1) (by omega)
        simpa [Nat.add_assoc, Nat.add_comm 1 i] using this
      · simpa [Nat.add_assoc, Nat.add_comm 1 j] using hfail

/-- The loop of `NewCPool` never blocks on its send. -/
theorem NewCPool.loop_not_blocked (openOk : Nat → Bool) :
    ∀ (k : Nat) (pool : cpool) (w w1 : World),
      pool.channel.closed = false → pool.channel.buf + k ≤ pool.channel.cap →
      NewCPool.loop openOk k pool w ≠ .blocked w1 := by
  intro k
  induction k with
  | zero => intro pool w w1 _ _ h; simp [NewCPool.loop] at h
  | succ k ih =>
    intro pool w w1 hc hb
    have hlt : pool.channel.buf < pool.channel.cap := by omega
    cases hok : openOk w.opens with
    | false => simp [NewCPool.loop, newConn, hok]
    | true =>
      simp only [NewCPool.loop, newConn, hok, if_true, Chan.send, hc, Bool.false_eq_true,
        if_false, hlt]
      apply ih
      · simp
      · simp; omega

/-- The two tests of `NewCPool` on its argument, for a natural number. -/
theorem NewCPool_unfold (openOk : Nat → Bool) (n : Nat) (w : World) :
    NewCPool openOk (n : Int) w =
      if maxAlloc < ptrSize * n then .panicked .sliceCapOutOfRange w
      else if maxAlloc - hchanSize < 2 * ptrSize * n then .panicked .chanSizeOutOfRange w
      else
        match NewCPool.loop openOk n
          { mu := false, channel := { cap := n, buf := 0, closed := false }, conns := [],
            maxConn := (n : Int) } w with
        | .ret pool1 w1 => .ret (pool1, none) w1
        | .panicked pk w1 => .panicked pk w1
        | .blocked w1 => .blocked w1 := by
  have hneg : ¬ ((n : Int) < 0) := by omega
  simp only [NewCPool, hneg, false_or, Int.toNat_ofNat]

/-- A capacity whose slice would exceed `maxAlloc` is refused by the first
`make`, before any `newConn` call. -/
theorem NewCPool_refuses_large (openOk : Nat → Bool) (n : Nat) (w : World)
    (h : maxAlloc < ptrSize * n) :
    NewCPool openOk (n : Int) w = .panicked .sliceCapOutOfRange w := by
  rw [NewCPool_unfold, if_pos h]

/-- A negative capacity is refused by the first `make`. -/
theorem NewCPool_refuses_negative (openOk : Nat → Bool) (m : Int) (w : World) (h : m < 0) :
    NewCPool openOk m w = .panicked .sliceCapOutOfRange w := by
  simp [NewCPool, h]

theorem NewCPool_ret (openOk : Nat → Bool) (n : Nat) (w : World) (p : cpool) (e : error)
    (w1 : World) (h : NewCPool openOk (n : Int) w = .ret (p, e) w1) :
    p = builtPool n w ∧ e = none ∧
      w1 = { opens := w.opens + n, allocs := w.allocs + n, dbClosed := w.dbClosed } ∧
      ∀ i, i < n → openOk (w.opens + i) = true := by
  rw [NewCPool_unfold] at h
  by_cases h1 : maxAlloc < ptrSize * n
  · simp [h1] at h
  · by_cases h2 : maxAlloc - hchanSize < 2 * ptrSize * n
    · simp [h1, h2] at h
    · simp only [h1, h2, if_false] at h
      split at h
      · rename_i p1 w2 hl
        simp only [Outcome.ret.injEq, Prod.mk.injEq] at h
        obtain ⟨⟨rfl, rfl⟩, rfl⟩ := h
        obtain ⟨hp, hw, hall⟩ := NewCPool.loop_ret openOk n _ w _ _ rfl (by simp) hl
        refine ⟨?_, rfl, hw, hall⟩
        rw [hp]
        simp [builtPool]
      · simp at h
      · simp at h

theorem NewCPool_ok (openOk : Nat → Bool) (n : Nat) (w : World) (hcap : makeAccepts n)
    (hall : ∀ i, i < n → openOk (w.opens + i) = true) :
    NewCPool openOk (n : Int) w =
      .ret (builtPool n w, none)
        { opens := w.opens + n, allocs := w.allocs + n, dbClosed := w.dbClosed } := by
  obtain ⟨p, w1, hl⟩ := NewCPool.loop_ok openOk n
    { mu := false, channel := { cap := n, buf := 0, closed := false }, conns := [],
      maxConn := (n : Int) }
    w rfl (by simp) hall
  have h1 : ¬ maxAlloc < ptrSize * n := Nat.not_lt.mpr hcap.1
  have h2 : ¬ maxAlloc - hchanSize < 2 * ptrSize * n := Nat.not_lt.mpr hcap.2
  have h : NewCPool openOk (n : Int) w = .ret (p, none) w1 := by
    rw [NewCPool_unfold]
    simp only [h1, h2, if_false, hl]
  obtain ⟨hp, _, hw, _⟩ := NewCPool_ret openOk n w p none w1 h
  rw [h, hp, hw]

/-! ## The invariant of the open pool -/

theorem freshConns_nodup (w : World) (n : Nat) : (freshConns w n).Nodup := by
  unfold freshConns
  apply List.Nodup.map _ (List.nodup_range n)
  intro i j h
  simp only [Option.some.injEq, Conn.mk.injEq] at h
  omega

theorem Inv.init (n : Nat) (w : World) :
    Inv n { opens := w.opens + n, allocs := w.allocs + n, dbClosed := w.dbClosed }
      (Conc.init n w) where
  unlocked := rfl
  cap := rfl
  notClosed := rfl
  maxConn := rfl
  world := rfl
  tokens := by simp [Conc.init, builtPool, freshConns_length]
  total := by simp [Conc.init, builtPool, freshConns_length]
  nodup := by simpa [Conc.init, builtPool] using freshConns_nodup w n

theorem Inv.step {n : Nat} {w0 : World} {s s1 : Conc} (a : Action) (hi : Inv n w0 s)
    (h : Conc.step s a = some s1) : Inv n w0 s1 := by
  obtain ⟨sys, lent, inGet, inPut⟩ := s
  obtain ⟨⟨mu, ch, conns, mc⟩, w⟩ := sys
  obtain ⟨cap, buf, closed⟩ := ch
  obtain ⟨hmu, hcap, hcl, hmc, hw, htok, htot, hnd⟩ := hi
  simp only at hmu hcap hcl hmc hw htok htot hnd
  subst hcl hmu
  cases a with
  | getRecv =>
    by_cases hb : 0 < buf
    · simp only [Conc.step, cpool.recvToken, Chan.recv, hb, if_true, Option.some.injEq] at h
      subst h
      exact ⟨rfl, hcap, rfl, hmc, hw, by simp only; omega, htot, hnd⟩
    · simp [Conc.step, cpool.recvToken, Chan.recv, hb] at h
  | getDequeue =>
    by_cases hg : 0 < inGet
    · cases conns with
      | nil => simp [Conc.step, cpool.dequeue, hg] at h
      | cons c rest =>
        simp only [Conc.step, cpool.dequeue, hg, if_true, Bool.false_eq_true, if_false,
          Option.some.injEq] at h
        subst h
        refine ⟨rfl, hcap, rfl, hmc, hw, ?_, ?_, ?_⟩
        · simp only [List.length_cons] at htok ⊢; omega
        · simp only [List.length_cons] at htot ⊢; omega
        · simpa using List.nodup_middle.mp hnd
    · simp [Conc.step, hg] at h
  | putAppend c =>
    by_cases hc : c ∈ lent
    · simp only [Conc.step, cpool.enqueue, hc, if_true, Bool.false_eq_true, if_false,
        Option.some.injEq] at h
      subst h
      have hlen : (lent.erase c).length + 1 = lent.length := by
        rw [List.length_erase_of_mem hc]
        have : 0 < lent.length := List.length_pos_of_mem hc
        omega
      refine ⟨rfl, hcap, rfl, hmc, hw, ?_, ?_, ?_⟩
      · simp only [List.length_append, List.length_singleton]; omega
      · simp only [List.length_append, List.length_singleton]; omega
      · have hp : (lent ++ conns).Perm (lent.erase c ++ (conns ++ [c])) := by
          have h1 : lent.Perm (c :: lent.erase c) := by
            obtain ⟨l1, l2, _, h3, h4⟩ := List.exists_erase_eq hc
            rw [h4]
            nth_rewrite 1 [h3]
            exact List.perm_middle
          have h2 : (lent ++ conns).Perm (c :: (lent.erase c ++ conns)) := by
            simpa using h1.append_right conns
          refine h2.trans ?_
          rw [← List.append_assoc]
          exact (List.perm_append_singleton c _).symm
        exact hp.nodup_iff.mp hnd
    · simp [Conc.step, hc] at h
  | putSend =>
    by_cases hp : 0 < inPut
    · have hlt : buf < cap := by
        have : conns.length ≤ n := by omega
        omega
      simp only [Conc.step, cpool.sendToken, Chan.send, hp, if_true, Bool.false_eq_true,
        if_false, hlt, Option.some.injEq] at h
      subst h
      exact ⟨rfl, hcap, rfl, hmc, hw, by simp only; omega, htot, hnd⟩
    · simp [Conc.step, hp] at h
  | handOff =>
    by_cases hp : 0 < inPut
    · by_cases hb : buf = 0
      · simp only [Conc.step, cpool.handOffToken, Chan.handOff, hp, if_true,
          Bool.false_eq_true, if_false, hb, Option.some.injEq] at h
        subst h
        exact ⟨rfl, hcap, rfl, hmc, hw, by simp only; omega, htot, hnd⟩
      · simp [Conc.step, cpool.handOffToken, Chan.handOff, hp, hb] at h
    · simp [Conc.step, hp] at h

theorem Inv.run {n : Nat} {w0 : World} :
    ∀ (acts : List Action) (s s1 : Conc), Inv n w0 s → Conc.run s acts = some s1 → Inv n w0 s1 := by
  intro acts
  induction acts with
  | nil =>
    intro s s1 hi h
    simp only [Conc.run, Option.some.injEq] at h
    exact h ▸ hi
  | cons a as ih =>
    intro s s1 hi h
    simp only [Conc.run] at h
    cases hs : Conc.step s a with
    | none => simp [hs] at h
    | some s2 =>
      simp only [hs] at h
      exact ih s2 s1 (Inv.step a hi hs) h

theorem Conc.run_append :
    ∀ (as bs : List Action) (s s1 : Conc), Conc.run s as = some s1 →
      Conc.run s (as ++ bs) = Conc.run s1 bs := by
  intro as
  induction as with
  | nil =>
    intro bs s s1 h
    simp only [Conc.run, Option.some.injEq] at h
    simp [h]
  | cons a as ih =>
    intro bs s s1 h
    simp only [Conc.run, List.cons_append] at h ⊢
    cases hs : Conc.step s a with
    | none => simp [hs] at h
    | some s2 =>
      simp only [hs] at h ⊢
      exact ih bs s2 s1 h

/-- A completed call is its two atomic steps taken back to back. -/
theorem Seq.apply_toConc (s s1 : Seq) (op : Op) (h : Seq.apply s op = some s1) :
    Conc.run s.toConc op.actions = some s1.toConc := by
  obtain ⟨sys, lent⟩ := s
  cases op with
  | get =>
    simp only [Seq.apply, cpool.Get] at h
    cases h1 : cpool.recvToken sys with
    | ret u sys1 =>
      simp only [h1] at h
      cases h2 : cpool.dequeue sys1 with
      | ret c sys2 =>
        simp only [h2, Option.some.injEq] at h
        subst h
        simp [Op.actions, Conc.run, Conc.step, Seq.toConc, h1, h2]
      | panicked k sys2 => simp [h2] at h
      | blocked sys2 => simp [h2] at h
    | panicked k sys1 => simp [h1] at h
    | blocked sys1 => simp [h1] at h
  | put c =>
    by_cases hc : c ∈ lent
    · cases hmu : sys.pool.mu with
      | true => simp [Seq.apply, hc, cpool.Put, cpool.enqueue, hmu] at h
      | false =>
        simp only [Seq.apply, hc, if_true, cpool.Put, cpool.enqueue, hmu, Bool.false_eq_true,
          if_false] at h
        split at h
        · rename_i u sys2 h2
          simp only [Option.some.injEq] at h
          subst h
          simp [Op.actions, Conc.run, Conc.step, Seq.toConc, hc, cpool.enqueue, hmu, h2]
        · simp at h
    · simp [Seq.apply, hc] at h

/-- A sequence of completed calls is an interleaving. -/
theorem Seq.run_toConc :
    ∀ (ops : List Op) (s s1 : Seq), Seq.run s ops = some s1 →
      Conc.run s.toConc (ops.flatMap Op.actions) = some s1.toConc := by
  intro ops
  induction ops with
  | nil =>
    intro s s1 h
    simp only [Seq.run, Option.some.injEq] at h
    simp [Conc.run, h]
  | cons op ops ih =>
    intro s s1 h
    simp only [Seq.run] at h
    cases hs : Seq.apply s op with
    | none => simp [hs] at h
    | some s2 =>
      simp only [hs] at h
      rw [List.flatMap_cons, Conc.run_append _ _ _ _ (Seq.apply_toConc s s2 op hs)]
      exact ih s2 s1 h

/-- The invariant holds after every sequence of completed calls on the pool
that `NewCPool` returned. -/
theorem Inv.ofSeq (openOk : Nat → Bool) (n : Nat) (w : World) (pool : cpool) (e : error)
    (w1 : World) (ops : List Op) (s : Seq)
    (hnew : NewCPool openOk (n : Int) w = .ret (pool, e) w1)
    (hrun : Seq.run { sys := { pool := pool, world := w1 }, lent := [] } ops = some s) :
    Inv n w1 s.toConc := by
  obtain ⟨hp, _, hw, _⟩ := NewCPool_ret openOk n w pool e w1 hnew
  subst hp hw
  exact Inv.run _ _ _ (Inv.init n w) (Seq.run_toConc ops _ s hrun)

/-- The invariant holds after every interleaving of atomic steps on the pool
that `NewCPool` returned. -/
theorem Inv.ofConc (openOk : Nat → Bool) (n : Nat) (w : World) (pool : cpool) (e : error)
    (w1 : World) (acts : List Action) (s : Conc)
    (hnew : NewCPool openOk (n : Int) w = .ret (pool, e) w1)
    (hrun : Conc.run { sys := { pool := pool, world := w1 }, lent := [], inGet := 0, inPut := 0 }
      acts = some s) :
    Inv n w1 s := by
  obtain ⟨hp, _, hw, _⟩ := NewCPool_ret openOk n w pool e w1 hnew
  subst hp hw
  exact Inv.run _ _ _ (Inv.init n w) hrun

/-! ## Consecutive `Get` calls, and `Close` -/

theorem cpool.GetN_ok :
    ∀ (k : Nat) (s : Sys), s.pool.mu = false →
      (s.pool.channel.closed = true ∨ k ≤ s.pool.channel.buf) →
      k ≤ s.pool.conns.length →
      cpool.GetN k s = .ret ((s.pool.conns.take k).map fun c => (c, none)) (afterGets k s) := by
  intro k
  induction k with
  | zero =>
    intro s _ _ _
    simp [cpool.GetN, afterGets]
  | succ k ih =>
    intro s hmu hb hl
    obtain ⟨⟨mu, ⟨cap, buf, closed⟩, conns, mc⟩, w⟩ := s
    simp only at hmu
    subst hmu
    cases conns with
    | nil => simp at hl
    | cons c rest =>
      simp only [List.length_cons, Nat.add_le_add_iff_right] at hl
      simp only at hb
      have hget : cpool.Get ⟨⟨false, ⟨cap, buf, closed⟩, c :: rest, mc⟩, w⟩ =
          .ret (c, none) ⟨⟨false, ⟨cap, buf - 1, closed⟩, rest, mc⟩, w⟩ := by
        by_cases h0 : 0 < buf
        · simp [cpool.Get, cpool.recvToken, cpool.dequeue, Chan.recv, h0]
        · have hz : buf = 0 := by omega
          subst hz
          have hcl : closed = true := by
            rcases hb with h | h
            · exact h
            · omega
          subst hcl
          simp [cpool.Get, cpool.recvToken, cpool.dequeue, Chan.recv]
      have hrec := ih ⟨⟨false, ⟨cap, buf - 1, closed⟩, rest, mc⟩, w⟩ rfl
        (by rcases hb with h | h
            · exact Or.inl h
            · exact Or.inr (by simp only; omega)) hl
      simp only [cpool.GetN, hget, hrec, List.take_succ_cons, List.map_cons, afterGets,
        List.drop_succ_cons, Outcome.ret.injEq, true_and, Sys.mk.injEq, cpool.mk.injEq,
        Chan.mk.injEq, and_true]
      omega

theorem cpool.Close.loop_never_blocks :
    ∀ (cs : List ConnPtr) (w w1 : World), cpool.Close.loop cs w ≠ .blocked w1 := by
  intro cs
  induction cs with
  | nil => intro w w1 h; simp [cpool.Close.loop] at h
  | cons c rest ih =>
    intro w w1
    cases c with
    | none => simp [cpool.Close.loop]
    | some c => simpa [cpool.Close.loop] using ih _ w1

/-- When the loop of `Close` returns, every connection it visited is a non-nil
pointer whose `db.Close()` is in the log, and the log has kept what it held. -/
theorem cpool.Close.loop_destroys_all :
    ∀ (cs : List ConnPtr) (w w1 : World), cpool.Close.loop cs w = .ret () w1 →
      (∀ d, d ∈ w.dbClosed → d ∈ w1.dbClosed) ∧
      (∀ p, p ∈ cs → ∃ c, p = some c ∧ c.db ∈ w1.dbClosed) ∧
      w1.opens = w.opens ∧ w1.allocs = w.allocs := by
  intro cs
  induction cs with
  | nil =>
    intro w w1 h
    simp only [cpool.Close.loop, Outcome.ret.injEq, true_and] at h
    subst h
    simp
  | cons c rest ih =>
    intro w w1 h
    cases c with
    | none => simp [cpool.Close.loop] at h
    | some c =>
      simp only [cpool.Close.loop] at h
      obtain ⟨hkeep, hall, ho, ha⟩ := ih _ w1 h
      refine ⟨fun d hd => hkeep d (by simp [hd]), ?_, ho, ha⟩
      intro p hp
      rcases List.mem_cons.mp hp with rfl | hp
      · exact ⟨c, rfl, hkeep c.db (by simp)⟩
      · exact hall p hp

/-- When `Close` returns, the channel was open before and is closed after,
the mutex and `pool.conns` are as before, and every connection in `pool.conns`
is a non-nil pointer whose `db.Close()` is in the log. -/
theorem cpool.Close_ret (s s1 : Sys) (h : cpool.Close s = .ret () s1) :
    s.pool.channel.closed = false ∧ s1.pool.channel.closed = true ∧
      s1.pool.channel.buf = s.pool.channel.buf ∧ s1.pool.conns = s.pool.conns ∧
      s1.pool.mu = s.pool.mu ∧
      ∀ p, p ∈ s1.pool.conns → ∃ c, p = some c ∧ c.db ∈ s1.world.dbClosed := by
  obtain ⟨⟨mu, ⟨cap, buf, closed⟩, conns, mc⟩, w⟩ := s
  cases closed with
  | true => simp [cpool.Close, Chan.close] at h
  | false =>
    simp only [cpool.Close, Chan.close, Bool.false_eq_true, if_false] at h
    split at h
    · rename_i u w2 hl
      simp only [Outcome.ret.injEq, true_and] at h
      subst h
      exact ⟨rfl, rfl, rfl, rfl, rfl, (cpool.Close.loop_destroys_all _ _ _ hl).2.1⟩
    · simp at h
    · simp at h

theorem cpool.Close_not_blocked (s s1 : Sys) : cpool.Close s ≠ .blocked s1 := by
  obtain ⟨⟨mu, ⟨cap, buf, closed⟩, conns, mc⟩, w⟩ := s
  cases closed with
  | true => simp [cpool.Close, Chan.close]
  | false =>
    simp only [cpool.Close, Chan.close, Bool.false_eq_true, if_false]
    intro h
    split at h
    · simp at h
    · simp at h
    · rename_i w2 hl
      exact cpool.Close.loop_never_blocks _ _ _ hl

theorem NewCPool_not_blocked (openOk : Nat → Bool) (m : Int) (w w1 : World) :
    NewCPool openOk m w ≠ .blocked w1 := by
  unfold NewCPool
  by_cases h1 : m < 0 ∨ maxAlloc < ptrSize * m.toNat
  · simp [h1]
  · by_cases h2 : maxAlloc - hchanSize < 2 * ptrSize * m.toNat
    · simp [h1, h2]
    · simp only [h1, h2, if_false]
      intro h
      split at h
      · simp at h
      · simp at h
      · rename_i w2 hl
        exact NewCPool.loop_not_blocked openOk _ _ _ _ rfl (by simp) hl

/-- `Get` returns the first connection when the mutex is free, a token is
there (or the channel is closed) and `pool.conns` is not empty. -/
theorem cpool.Get_ok (s : Sys) (c : ConnPtr) (rest : List ConnPtr)
    (hmu : s.pool.mu = false) (hc : s.pool.conns = c :: rest)
    (hb : s.pool.channel.closed = true ∨ 0 < s.pool.channel.buf) :
    cpool.Get s = .ret (c, none)
      { pool := { mu := false
                  channel := { s.pool.channel with buf := s.pool.channel.buf - 1 }
                  conns := rest
                  maxConn := s.pool.maxConn }
        world := s.world } := by
  have h := cpool.GetN_ok 1 s hmu (by rcases hb with h | h
                                      · exact Or.inl h
                                      · exact Or.inr h) (by simp [hc])
  simp only [cpool.GetN, hc, List.take_succ_cons, List.take_zero, List.map_cons,
    List.map_nil, afterGets, List.drop_succ_cons, List.drop_zero, hmu] at h
  split at h
  · rename_i r s1 hg
    simp only [Outcome.ret.injEq, List.cons.injEq, and_true] at h
    rw [hg, h.1, h.2]
  · simp at h
  · simp at h

/-- `Get` on an empty `pool.conns`, a token being there (or the channel
closed): the index panics and the mutex stays held. -/
theorem cpool.Get_index_panic (s : Sys) (hmu : s.pool.mu = false) (hc : s.pool.conns = [])
    (hb : s.pool.channel.closed = true ∨ 0 < s.pool.channel.buf) :
    cpool.Get s = .panicked .indexOutOfRange
      { pool := { mu := true
                  channel := { s.pool.channel with buf := s.pool.channel.buf - 1 }
                  conns := []
                  maxConn := s.pool.maxConn }
        world := s.world } := by
  obtain ⟨⟨mu, ⟨cap, buf, closed⟩, conns, mc⟩, w⟩ := s
  simp only at hmu hc hb
  subst hmu hc
  by_cases h0 : 0 < buf
  · simp [cpool.Get, cpool.recvToken, cpool.dequeue, Chan.recv, h0]
  · have hz : buf = 0 := by omega
    subst hz
    have hcl : closed = true := by
      rcases hb with h | h
      · exact h
      · omega
    subst hcl
    simp [cpool.Get, cpool.recvToken, cpool.dequeue, Chan.recv]

/-- Once the mutex is held for good, a `Get` that gets past its receive blocks
on `pool.mu.Lock()`. -/
theorem cpool.Get_blocks_when_locked (s : Sys) (hmu : s.pool.mu = true)
    (hb : s.pool.channel.closed = true ∨ 0 < s.pool.channel.buf) :
    ∃ t, cpool.Get s = .blocked t := by
  obtain ⟨⟨mu, ⟨cap, buf, closed⟩, conns, mc⟩, w⟩ := s
  simp only at hmu hb
  subst hmu
  by_cases h0 : 0 < buf
  · exact ⟨_, by simp [cpool.Get, cpool.recvToken, cpool.dequeue, Chan.recv, h0]; rfl⟩
  · have hz : buf = 0 := by omega
    subst hz
    have hcl : closed = true := by
      rcases hb with h | h
      · exact h
      · omega
    subst hcl
    exact ⟨_, by simp [cpool.Get, cpool.recvToken, cpool.dequeue, Chan.recv]; rfl⟩

/-- A `Put` that meets a `Get` parked in its receive, on an open channel with
an empty buffer (of any capacity, 0 included): the append, the hand-over and
the dequeue all go through, and with `pool.conns` empty before, the `Get`
obtains the connection just put. -/
theorem cpool.Put_meets_parked_Get (s : Sys) (c : ConnPtr) (hmu : s.pool.mu = false)
    (hcl : s.pool.channel.closed = false) (hb : s.pool.channel.buf = 0)
    (hc : s.pool.conns = []) :
    ∃ s1 s2 s3, cpool.enqueue s c = .ret () s1 ∧ cpool.handOffToken s1 = .ret () s2 ∧
      cpool.dequeue s2 = .ret c s3 ∧ s3.pool.conns = [] := by
  obtain ⟨⟨mu, ⟨cap, buf, closed⟩, conns, mc⟩, w⟩ := s
  simp only at hmu hcl hb hc
  subst hmu hcl hb hc
  exact ⟨⟨⟨false, ⟨cap, 0, false⟩, [c], mc⟩, w⟩, ⟨⟨false, ⟨cap, 0, false⟩, [c], mc⟩, w⟩,
    ⟨⟨false, ⟨cap, 0, false⟩, [], mc⟩, w⟩, rfl, rfl, rfl, rfl⟩

/-- `Put` returns when the mutex is free and the channel is open and has
room. -/
theorem cpool.Put_ok (s : Sys) (c : ConnPtr) (hmu : s.pool.mu = false)
    (hcl : s.pool.channel.closed = false)
    (hlt : s.pool.channel.buf < s.pool.channel.cap) :
    cpool.Put s c = .ret ()
      { pool := { mu := false
                  channel := { s.pool.channel with buf := s.pool.channel.buf + 1 }
                  conns := s.pool.conns ++ [c]
                  maxConn := s.pool.maxConn }
        world := s.world } := by
  simp [cpool.Put, cpool.enqueue, cpool.sendToken, Chan.send, hmu, hcl, hlt]

/-! ## Properties of the pool -/

/-- C1: in every state reached from the pool returned by `NewCPool(n)` through
a finite sequence of completed `Get` and `Put` calls, each `Put` giving back a
connection that is lent out at that moment, the number of connections lent out
plus `len(pool.conns)` is `maxConn`, and `maxConn` is `n`. -/
theorem C1_lent_plus_conns_eq_maxConn (openOk : Nat → Bool) (n : Nat) (w : World)
    (pool : cpool) (e : error) (w1 : World) (ops : List Op) (s : Seq)
    (hnew : NewCPool openOk (n : Int) w = .ret (pool, e) w1)
    (hrun : Seq.run { sys := { pool := pool, world := w1 }, lent := [] } ops = some s) :
    ((s.lent.length + s.sys.pool.conns.length : Nat) : Int) = s.sys.pool.maxConn ∧
      s.sys.pool.maxConn = (n : Int) := by
  have hi := Inv.ofSeq openOk n w pool e w1 ops s hnew hrun
  have ht : s.lent.length + s.sys.pool.conns.length = n := hi.total
  have hm : s.sys.pool.maxConn = (n : Int) := hi.maxConn
  rw [ht, hm]
  exact ⟨rfl, rfl⟩

theorem C1_witness :
    (([some (⟨1, 1⟩ : Conn)].length + [some (⟨0, 0⟩ : Conn)].length : Nat) : Int) = (2 : Int) ∧
      (2 : Int) = ((2 : Nat) : Int) :=
  C1_lent_plus_conns_eq_maxConn allOk 2 World.start
    { mu := false, channel := ⟨2, 2, false⟩, conns := [some ⟨0, 0⟩, some ⟨1, 1⟩], maxConn := 2 } none
    ⟨2, 2, []⟩ [.get, .get, .put (some ⟨0, 0⟩)]
    { sys := { pool := { mu := false, channel := ⟨2, 1, false⟩, conns := [some ⟨0, 0⟩], maxConn := 2 }
               world := ⟨2, 2, []⟩ }
      lent := [some ⟨1, 1⟩] }
    (by decide) (by decide)

/-- C2: no connection is lent twice.  In every state reached from the pool
returned by `NewCPool(n)` through completed `Get` and `Put` calls honouring
the release condition, the connections handed out by `Get` and not yet put
back are pairwise distinct and none of them is in `pool.conns`. -/
theorem C2_no_double_lend (openOk : Nat → Bool) (n : Nat) (w : World)
    (pool : cpool) (e : error) (w1 : World) (ops : List Op) (s : Seq)
    (hnew : NewCPool openOk (n : Int) w = .ret (pool, e) w1)
    (hrun : Seq.run { sys := { pool := pool, world := w1 }, lent := [] } ops = some s) :
    s.lent.Nodup ∧ ∀ c, c ∈ s.lent → c ∉ s.sys.pool.conns := by
  have hi := Inv.ofSeq openOk n w pool e w1 ops s hnew hrun
  have hnd : (s.lent ++ s.sys.pool.conns).Nodup := hi.nodup
  rw [List.nodup_append] at hnd
  exact ⟨hnd.1, fun c hc hc2 => hnd.2.2 hc hc2⟩

theorem C2_witness :
    [some (⟨1, 1⟩ : Conn), some ⟨0, 0⟩].Nodup ∧
      ∀ c, c ∈ [some (⟨1, 1⟩ : Conn), some ⟨0, 0⟩] → c ∉ [some (⟨2, 2⟩ : Conn)] :=
  C2_no_double_lend allOk 3 World.start
    { mu := false, channel := ⟨3, 3, false⟩, conns := [some ⟨0, 0⟩, some ⟨1, 1⟩, some ⟨2, 2⟩], maxConn := 3 }
    none ⟨3, 3, []⟩ [.get, .get]
    { sys := { pool := { mu := false, channel := ⟨3, 1, false⟩, conns := [some ⟨2, 2⟩], maxConn := 3 }
               world := ⟨3, 3, []⟩ }
      lent := [some ⟨1, 1⟩, some ⟨0, 0⟩] }
    (by decide) (by decide)

/-- C3, as the claim states it, fails: the capacity `1 << 62` is at least 1
and every `sql.Open` call would succeed, yet `NewCPool(1 << 62)` panics in
`make([]*conn, 0, maxConn)`, having called `newConn` not once and returning no
pool. -/
theorem C3_counterexample :
    NewCPool allOk ((2 ^ 62 : Nat) : Int) World.start =
      .panicked .sliceCapOutOfRange { opens := 0, allocs := 0, dbClosed := [] } :=
  NewCPool_refuses_large allOk (2 ^ 62) World.start (by decide)

/-- C3, amended: for every capacity `n` that `make` accepts (a slice and a
channel of that size fit the bound of the runtime), when the `n` calls of
`sql.Open` succeed, `NewCPool(n)` calls `newConn` exactly `n` times and returns a nil
error with a pool whose `conns` holds the `n` new connections in creation
order, whose `maxConn` is `n` and whose channel holds `n` tokens; `n`
consecutive `Get` calls then all return, giving those connections in order,
each with a nil error. -/
theorem C3_NewCPool_builds_full_pool (openOk : Nat → Bool) (n : Nat) (w : World)
    (hcap : makeAccepts n)
    (hok : ∀ i, i < n → openOk (w.opens + i) = true) :
    ∃ pool w1 s1,
      NewCPool openOk (n : Int) w = .ret (pool, none) w1 ∧
      w1.opens = w.opens + n ∧
      pool.conns = freshConns w n ∧
      pool.conns.length = n ∧
      pool.maxConn = (n : Int) ∧
      pool.channel = { cap := n, buf := n, closed := false } ∧
      cpool.GetN n { pool := pool, world := w1 } =
        .ret (pool.conns.map fun c => (c, none)) s1 ∧
      s1.pool.conns = [] ∧ s1.world.opens = w.opens + n := by
  refine ⟨builtPool n w,
    { opens := w.opens + n, allocs := w.allocs + n, dbClosed := w.dbClosed },
    afterGets n { pool := builtPool n w
                  world := { opens := w.opens + n, allocs := w.allocs + n,
                             dbClosed := w.dbClosed } },
    NewCPool_ok openOk n w hcap hok, rfl, rfl, freshConns_length w n, rfl, rfl, ?_, ?_, ?_⟩
  · have h := cpool.GetN_ok n
      { pool := builtPool n w
        world := { opens := w.opens + n, allocs := w.allocs + n, dbClosed := w.dbClosed } }
      rfl (Or.inr (Nat.le_refl n)) (by simp [builtPool, freshConns_length])
    have ht : (builtPool n w).conns.take n = (builtPool n w).conns := by
      apply List.take_of_length_le
      simp [builtPool, freshConns_length]
    simp only [ht] at h
    exact h
  · simp [afterGets, builtPool, freshConns_length]
  · simp [afterGets]

theorem C3_witness :
    ∃ pool w1 s1,
      NewCPool allOk ((3 : Nat) : Int) World.start = .ret (pool, none) w1 ∧
      w1.opens = World.start.opens + 3 ∧
      pool.conns = freshConns World.start 3 ∧
      pool.conns.length = 3 ∧
      pool.maxConn = ((3 : Nat) : Int) ∧
      pool.channel = { cap := 3, buf := 3, closed := false } ∧
      cpool.GetN 3 { pool := pool, world := w1 } =
        .ret (pool.conns.map fun c => (c, none)) s1 ∧
      s1.pool.conns = [] ∧ s1.world.opens = World.start.opens + 3 :=
  C3_NewCPool_builds_full_pool allOk 3 World.start (by decide) (fun _ _ => rfl)

/-- C4: at every quiescent point (no `Get` or `Put` call in progress) reached
from the pool returned by `NewCPool(n)` through `Get` and `Put` calls
honouring the release condition, in any interleaving of their atomic steps,
`len(pool.conns)` is the number of tokens buffered in `pool.channel`. -/
theorem C4_conns_eq_tokens_when_quiescent (openOk : Nat → Bool) (n : Nat) (w : World)
    (pool : cpool) (e : error) (w1 : World) (acts : List Action) (s : Conc)
    (hnew : NewCPool openOk (n : Int) w = .ret (pool, e) w1)
    (hrun : Conc.run { sys := { pool := pool, world := w1 }, lent := [], inGet := 0, inPut := 0 }
      acts = some s)
    (hget : s.inGet = 0) (hput : s.inPut = 0) :
    s.sys.pool.conns.length = s.sys.pool.channel.buf := by
  have hi := Inv.ofConc openOk n w pool e w1 acts s hnew hrun
  have ht := hi.tokens
  omega

theorem C4_witness :
    [some (⟨1, 1⟩ : Conn), some ⟨0, 0⟩].length = 2 :=
  C4_conns_eq_tokens_when_quiescent allOk 2 World.start
    { mu := false, channel := ⟨2, 2, false⟩, conns := [some ⟨0, 0⟩, some ⟨1, 1⟩], maxConn := 2 } none
    ⟨2, 2, []⟩ [.getRecv, .getRecv, .getDequeue, .putAppend (some ⟨0, 0⟩), .handOff,
      .getDequeue, .getDequeue, .putAppend (some ⟨1, 1⟩), .putSend,
      .putAppend (some ⟨0, 0⟩), .putSend]
    { sys := { pool := { mu := false, channel := ⟨2, 2, false⟩, conns := [some ⟨1, 1⟩, some ⟨0, 0⟩],
                         maxConn := 2 }
               world := ⟨2, 2, []⟩ }
      lent := [], inGet := 0, inPut := 0 }
    (by decide) (by decide) rfl rfl

/-- C5: on a pool of capacity 1, `Get`, then `Put` of the connection just
obtained, then `Get` again returns the same connection both times, the one
made at construction, and `newConn` is not called again; in every state
reached on a pool of capacity at least 1 through completed `Get` and `Put`
calls honouring the release condition in which `pool.conns` is empty, `Put(c)`
returns and the `Get` after it returns `c`, again without a further `newConn`
call; and in any state whatever with `pool.conns` empty, if `Put(c)` returns
then the `Get` after it returns `c`. -/
theorem C5_put_then_get_returns_same (openOk : Nat → Bool) (w : World) :
    (openOk w.opens = true →
      ∃ pool w1 s1 s2 s3,
        NewCPool openOk 1 w = .ret (pool, none) w1 ∧
        cpool.Get { pool := pool, world := w1 } =
          .ret (some { addr := w.allocs, db := w.opens }, none) s1 ∧
        cpool.Put s1 (some { addr := w.allocs, db := w.opens }) = .ret () s2 ∧
        cpool.Get s2 = .ret (some { addr := w.allocs, db := w.opens }, none) s3 ∧
        w1.opens = w.opens + 1 ∧ s3.world.opens = w.opens + 1) ∧
    (∀ (n : Nat) (pool : cpool) (e : error) (w1 : World) (ops : List Op) (s : Seq)
        (c : ConnPtr),
      1 ≤ n →
      NewCPool openOk (n : Int) w = .ret (pool, e) w1 →
      Seq.run { sys := { pool := pool, world := w1 }, lent := [] } ops = some s →
      s.sys.pool.conns = [] →
      ∃ s1 s2, cpool.Put s.sys c = .ret () s1 ∧ cpool.Get s1 = .ret (c, none) s2 ∧
        s2.world.opens = w1.opens) ∧
    (∀ (t t1 : Sys) (c : ConnPtr),
      t.pool.conns = [] → cpool.Put t c = .ret () t1 →
      ∃ t2, cpool.Get t1 = .ret (c, none) t2 ∧ t2.world = t.world) := by
  refine ⟨?_, ?_, ?_⟩
  · intro hok
    have hnew := NewCPool_ok openOk 1 w (by decide) (fun i hi => by
      have : i = 0 := by omega
      subst this
      simpa using hok)
    have hg1 := cpool.Get_ok
      { pool := builtPool 1 w
        world := { opens := w.opens + 1, allocs := w.allocs + 1, dbClosed := w.dbClosed } }
      (some { addr := w.allocs, db := w.opens }) [] rfl rfl (Or.inr Nat.zero_lt_one)
    have hp := cpool.Put_ok
      { pool := { mu := false, channel := { cap := 1, buf := 0, closed := false }, conns := [],
                  maxConn := 1 }
        world := { opens := w.opens + 1, allocs := w.allocs + 1, dbClosed := w.dbClosed } }
      (some { addr := w.allocs, db := w.opens }) rfl rfl Nat.zero_lt_one
    have hg2 := cpool.Get_ok
      { pool := { mu := false, channel := { cap := 1, buf := 1, closed := false }
                  conns := [some { addr := w.allocs, db := w.opens }], maxConn := 1 }
        world := { opens := w.opens + 1, allocs := w.allocs + 1, dbClosed := w.dbClosed } }
      (some { addr := w.allocs, db := w.opens }) [] rfl rfl (Or.inr Nat.zero_lt_one)
    exact ⟨_, _, _, _, _, hnew, hg1, hp, hg2, rfl, rfl⟩
  · intro n pool e w1 ops s c hn hnew hrun hempty
    have hi := Inv.ofSeq openOk n w pool e w1 ops s hnew hrun
    have htok : s.sys.pool.channel.buf + 0 + 0 = s.sys.pool.conns.length := hi.tokens
    have hw : s.sys.world = w1 := hi.world
    have hcl : s.sys.pool.channel.closed = false := hi.notClosed
    have hmu : s.sys.pool.mu = false := hi.unlocked
    by_cases hlt : s.sys.pool.channel.buf < s.sys.pool.channel.cap
    · have hg := cpool.Get_ok
        { pool := { mu := false
                    channel := { s.sys.pool.channel with buf := s.sys.pool.channel.buf + 1 }
                    conns := s.sys.pool.conns ++ [c]
                    maxConn := s.sys.pool.maxConn }
          world := s.sys.world } c [] rfl (by simp [hempty]) (Or.inr (by simp))
      exact ⟨_, _, cpool.Put_ok s.sys c hmu hcl hlt, hg, by simp [hw]⟩
    · exfalso
      have hcap : s.sys.pool.channel.cap = n := hi.cap
      rw [hempty] at htok
      simp only [List.length_nil] at htok
      omega
  · intro t t1 c hempty hput
    obtain ⟨⟨mu, ⟨cap, buf, closed⟩, conns, mc⟩, w2⟩ := t
    simp only at hempty
    subst hempty
    cases mu with
    | true => simp [cpool.Put, cpool.enqueue] at hput
    | false =>
      cases closed with
      | true => simp [cpool.Put, cpool.enqueue, cpool.sendToken, Chan.send] at hput
      | false =>
        by_cases hlt : buf < cap
        · simp only [cpool.Put, cpool.enqueue, cpool.sendToken, Chan.send, Bool.false_eq_true,
            if_false, hlt, if_true, List.nil_append, Outcome.ret.injEq, true_and] at hput
          subst hput
          exact ⟨_, cpool.Get_ok _ c [] rfl rfl (Or.inr (Nat.succ_pos buf)), rfl⟩
        · simp [cpool.Put, cpool.enqueue, cpool.sendToken, Chan.send, hlt] at hput

theorem C5_witness :
    (∃ pool w1 s1 s2 s3,
        NewCPool allOk 1 World.start = .ret (pool, none) w1 ∧
        cpool.Get { pool := pool, world := w1 } =
          .ret (some { addr := World.start.allocs, db := World.start.opens }, none) s1 ∧
        cpool.Put s1 (some { addr := World.start.allocs, db := World.start.opens }) =
          .ret () s2 ∧
        cpool.Get s2 =
          .ret (some { addr := World.start.allocs, db := World.start.opens }, none) s3 ∧
        w1.opens = World.start.opens + 1 ∧ s3.world.opens = World.start.opens + 1) ∧
    (∃ s1 s2,
        cpool.Put
          { pool := { mu := false, channel := ⟨2, 0, false⟩, conns := [], maxConn := 2 }
            world := ⟨2, 2, []⟩ } (some ⟨0, 0⟩) = .ret () s1 ∧
        cpool.Get s1 = .ret (some ⟨0, 0⟩, none) s2 ∧ s2.world.opens = 2) ∧
    (∃ t2,
        cpool.Get
          { pool := { mu := false, channel := ⟨1, 1, false⟩, conns := [some ⟨7, 7⟩], maxConn := 1 }
            world := ⟨8, 8, []⟩ } = .ret (some ⟨7, 7⟩, none) t2 ∧
        t2.world = ⟨8, 8, []⟩) :=
  ⟨(C5_put_then_get_returns_same allOk World.start).1 rfl,
    (C5_put_then_get_returns_same allOk World.start).2.1 2
      { mu := false, channel := ⟨2, 2, false⟩, conns := [some ⟨0, 0⟩, some ⟨1, 1⟩], maxConn := 2 } none
      ⟨2, 2, []⟩ [.get, .get]
      { sys := { pool := { mu := false, channel := ⟨2, 0, false⟩, conns := [], maxConn := 2 }
                 world := ⟨2, 2, []⟩ }
        lent := [some ⟨1, 1⟩, some ⟨0, 0⟩] }
      (some ⟨0, 0⟩) (by decide) (by decide) (by decide) rfl,
    (C5_put_then_get_returns_same allOk World.start).2.2
      { pool := { mu := false, channel := ⟨1, 0, false⟩, conns := [], maxConn := 1 }, world := ⟨8, 8, []⟩ }
      { pool := { mu := false, channel := ⟨1, 1, false⟩, conns := [some ⟨7, 7⟩], maxConn := 1 }
        world := ⟨8, 8, []⟩ }
      (some ⟨7, 7⟩) rfl (by decide)⟩

/-- C9: with the channel receive and the locked dequeue of `Get` and the
locked append and the channel send of `Put` as separate atomic steps (a send
that meets a parked `Get` handing its token over at once), in every
state reached by any interleaving of `Get` and `Put` calls on the pool returned
by `NewCPool(n)` (each `Put` of a connection lent out at that moment, no
`Close`), the tokens in `pool.channel` plus the `Get` calls that hold a token
and have not yet dequeued are at most `len(pool.conns)`; so the dequeue
`pool.conns[0]` of such a `Get` never panics. -/
theorem C9_token_implies_connection_present (openOk : Nat → Bool) (n : Nat) (w : World)
    (pool : cpool) (e : error) (w1 : World) (acts : List Action) (s : Conc)
    (hnew : NewCPool openOk (n : Int) w = .ret (pool, e) w1)
    (hrun : Conc.run { sys := { pool := pool, world := w1 }, lent := [], inGet := 0, inPut := 0 }
      acts = some s) :
    s.sys.pool.channel.buf + s.inGet ≤ s.sys.pool.conns.length ∧
      (0 < s.inGet → ∃ c sys1, cpool.dequeue s.sys = .ret c sys1) := by
  have hi := Inv.ofConc openOk n w pool e w1 acts s hnew hrun
  have ht := hi.tokens
  refine ⟨by omega, fun hg => ?_⟩
  cases hc : s.sys.pool.conns with
  | nil =>
    rw [hc] at ht
    simp only [List.length_nil] at ht
    omega
  | cons c rest =>
    exact ⟨c, { s.sys with pool := { s.sys.pool with conns := rest } }, by
      simp [cpool.dequeue, hc, hi.unlocked]⟩

theorem C9_witness :
    0 + 2 ≤ [some (⟨0, 0⟩ : Conn), some ⟨1, 1⟩].length ∧
      (0 < 2 → ∃ c sys1,
        cpool.dequeue
          { pool := { mu := false, channel := ⟨2, 0, false⟩, conns := [some ⟨0, 0⟩, some ⟨1, 1⟩],
                      maxConn := 2 }
            world := ⟨2, 2, []⟩ } = .ret c sys1) :=
  C9_token_implies_connection_present allOk 2 World.start
    { mu := false, channel := ⟨2, 2, false⟩, conns := [some ⟨0, 0⟩, some ⟨1, 1⟩], maxConn := 2 } none
    ⟨2, 2, []⟩ [.getRecv, .getRecv]
    { sys := { pool := { mu := false, channel := ⟨2, 0, false⟩, conns := [some ⟨0, 0⟩, some ⟨1, 1⟩],
                         maxConn := 2 }
               world := ⟨2, 2, []⟩ }
      lent := [], inGet := 2, inPut := 0 }
    (by decide) (by decide)

/-- C10: in every state reached from the pool returned by `NewCPool(n)` through
completed `Get` and `Put` calls honouring the release condition, `Put` of a
lent-out connection returns without blocking, the channel holding fewer than
`maxConn` tokens when it sends; `Get` returns exactly when the channel holds at
least one token and blocks exactly when it holds none; and neither `NewCPool`
(whatever its argument) nor `Close` ever blocks. -/
theorem C10_only_Get_blocks (openOk : Nat → Bool) (n : Nat) (w : World)
    (pool : cpool) (e : error) (w1 : World) (ops : List Op) (s : Seq)
    (hnew : NewCPool openOk (n : Int) w = .ret (pool, e) w1)
    (hrun : Seq.run { sys := { pool := pool, world := w1 }, lent := [] } ops = some s) :
    (∀ c, c ∈ s.lent → ∃ s1 s2,
        cpool.enqueue s.sys c = .ret () s1 ∧
        (s1.pool.channel.buf : Int) < s1.pool.maxConn ∧
        cpool.sendToken s1 = .ret () s2 ∧
        cpool.Put s.sys c = .ret () s2) ∧
      ((∃ r s1, cpool.Get s.sys = .ret r s1) ↔ 1 ≤ s.sys.pool.channel.buf) ∧
      ((∃ s1, cpool.Get s.sys = .blocked s1) ↔ s.sys.pool.channel.buf = 0) ∧
      (∀ (f : Nat → Bool) (m : Int) (v v1 : World), NewCPool f m v ≠ .blocked v1) ∧
      (∀ t t1 : Sys, cpool.Close t ≠ .blocked t1) := by
  have hi := Inv.ofSeq openOk n w pool e w1 ops s hnew hrun
  obtain ⟨⟨⟨mu, ⟨cap, buf, closed⟩, conns, mc⟩, w2⟩, lent⟩ := s
  obtain ⟨hmu, hcap, hcl, hmc, hw, htok, htot, hnd⟩ := hi
  simp only [Seq.toConc, Nat.add_zero] at hmu hcap hcl hmc hw htok htot hnd
  subst hmu hcl hmc htok htot hcap
  refine ⟨?_, ?_, ?_, fun f m v v1 => NewCPool_not_blocked f m v v1,
    fun t t1 => cpool.Close_not_blocked t t1⟩
  · intro c hc
    have hpos : 0 < lent.length := List.length_pos_of_mem hc
    have hlt : conns.length < lent.length + conns.length := by omega
    refine ⟨⟨⟨false, ⟨lent.length + conns.length, conns.length, false⟩, conns ++ [c],
        ((lent.length + conns.length : Nat) : Int)⟩, w2⟩,
      ⟨⟨false, ⟨lent.length + conns.length, conns.length + 1, false⟩, conns ++ [c],
        ((lent.length + conns.length : Nat) : Int)⟩, w2⟩, rfl, ?_, ?_, ?_⟩
    · show ((conns.length : Nat) : Int) < ((lent.length + conns.length : Nat) : Int)
      exact_mod_cast hlt
    · simp [cpool.sendToken, Chan.send, hlt]
    · simp [cpool.Put, cpool.enqueue, cpool.sendToken, Chan.send, hlt]
  · cases conns with
    | nil => simp [cpool.Get, cpool.recvToken, Chan.recv]
    | cons c rest =>
      simp [cpool.Get, cpool.recvToken, Chan.recv, cpool.dequeue]
  · cases conns with
    | nil => simp [cpool.Get, cpool.recvToken, Chan.recv]
    | cons c rest =>
      simp [cpool.Get, cpool.recvToken, Chan.recv, cpool.dequeue]

theorem C10_witness :
    (∀ c, c ∈ [some (⟨0, 0⟩ : Conn)] → ∃ s1 s2,
        cpool.enqueue
          { pool := { mu := false, channel := ⟨2, 1, false⟩, conns := [some ⟨1, 1⟩], maxConn := 2 }
            world := ⟨2, 2, []⟩ } c = .ret () s1 ∧
        (s1.pool.channel.buf : Int) < s1.pool.maxConn ∧
        cpool.sendToken s1 = .ret () s2 ∧
        cpool.Put
          { pool := { mu := false, channel := ⟨2, 1, false⟩, conns := [some ⟨1, 1⟩], maxConn := 2 }
            world := ⟨2, 2, []⟩ } c = .ret () s2) ∧
      ((∃ r s1,
        cpool.Get
          { pool := { mu := false, channel := ⟨2, 1, false⟩, conns := [some ⟨1, 1⟩], maxConn := 2 }
            world := ⟨2, 2, []⟩ } = .ret r s1) ↔ 1 ≤ 1) ∧
      ((∃ s1,
        cpool.Get
          { pool := { mu := false, channel := ⟨2, 1, false⟩, conns := [some ⟨1, 1⟩], maxConn := 2 }
            world := ⟨2, 2, []⟩ } = .blocked s1) ↔ 1 = 0) ∧
      (∀ (f : Nat → Bool) (m : Int) (v v1 : World), NewCPool f m v ≠ .blocked v1) ∧
      (∀ t t1 : Sys, cpool.Close t ≠ .blocked t1) :=
  C10_only_Get_blocks allOk 2 World.start
    { mu := false, channel := ⟨2, 2, false⟩, conns := [some ⟨0, 0⟩, some ⟨1, 1⟩], maxConn := 2 } none
    ⟨2, 2, []⟩ [.get]
    { sys := { pool := { mu := false, channel := ⟨2, 1, false⟩, conns := [some ⟨1, 1⟩], maxConn := 2 }
               world := ⟨2, 2, []⟩ }
      lent := [some ⟨0, 0⟩] }
    (by decide) (by decide)

/-- C6, as the claim states it, fails: on the pool of capacity 1, `Get` after
`Close` returns the connection made at construction (not nil), already
destroyed, with a nil error. -/
theorem C6_counterexample :
    NewCPool allOk 1 World.start =
      .ret ({ mu := false, channel := ⟨1, 1, false⟩, conns := [some ⟨0, 0⟩], maxConn := 1 }, none)
        ⟨1, 1, []⟩ ∧
    cpool.Close
        { pool := { mu := false, channel := ⟨1, 1, false⟩, conns := [some ⟨0, 0⟩], maxConn := 1 }
          world := ⟨1, 1, []⟩ } =
      .ret ()
        { pool := { mu := false, channel := ⟨1, 1, true⟩, conns := [some ⟨0, 0⟩], maxConn := 1 }
          world := ⟨1, 1, [0]⟩ } ∧
    cpool.Get
        { pool := { mu := false, channel := ⟨1, 1, true⟩, conns := [some ⟨0, 0⟩], maxConn := 1 }
          world := ⟨1, 1, [0]⟩ } =
      .ret (some ⟨0, 0⟩, none)
        { pool := { mu := false, channel := ⟨1, 0, true⟩, conns := [], maxConn := 1 }
          world := ⟨1, 1, [0]⟩ } := by
  decide

/-- C6, amended: after `Close` has returned on a pool whose mutex is free,
`Get` does not fail with a shutdown error.  No `Get` call, in any state,
returns a non-nil error; and for every `k` up to `len(pool.conns)` the next
`k` calls of `Get` all return, without blocking, the first `k` connections of
`pool.conns` in order, each with a nil error, each a non-nil `*conn` whose
`db.Close()` the `Close` call has already made; the channel stays closed. -/
theorem C6_get_after_close_returns_connection (s s1 : Sys) (k : Nat)
    (hmu : s.pool.mu = false)
    (hclose : cpool.Close s = .ret () s1) (hk : k ≤ s1.pool.conns.length) :
    (∀ u r t, cpool.Get u = .ret r t → r.2 = none) ∧
    ∃ rs s2, cpool.GetN k s1 = .ret rs s2 ∧
      rs = (s1.pool.conns.take k).map (fun c => (c, none)) ∧
      rs.length = k ∧
      (∀ r, r ∈ rs → ∃ c, r = (some c, none) ∧ c.db ∈ s1.world.dbClosed) ∧
      s2.pool.channel.closed = true ∧ s2.pool.conns = s1.pool.conns.drop k := by
  obtain ⟨_, hcl, _, _, hmu1, hdest⟩ := cpool.Close_ret s s1 hclose
  refine ⟨?_, _, afterGets k s1, cpool.GetN_ok k s1 (hmu1.trans hmu) (Or.inl hcl) hk, rfl,
    ?_, ?_, hcl, rfl⟩
  · intro u r t ht
    simp only [cpool.Get] at ht
    split at ht
    · split at ht
      · simp only [Outcome.ret.injEq] at ht
        rw [← ht.1]
      · simp at ht
      · simp at ht
    · simp at ht
    · simp at ht
  · simp [List.length_take, hk]
  · intro r hr
    obtain ⟨p, hp, rfl⟩ := List.mem_map.mp hr
    obtain ⟨c, rfl, hc⟩ := hdest p (List.mem_of_mem_take hp)
    exact ⟨c, rfl, hc⟩

theorem C6_witness :
    (∀ u r t, cpool.Get u = .ret r t → r.2 = none) ∧
    ∃ rs s2,
      cpool.GetN 2
          { pool := { mu := false, channel := ⟨2, 1, true⟩
                      conns := [some ⟨1, 1⟩, some ⟨0, 0⟩], maxConn := 2 }
            world := ⟨2, 2, [1, 0]⟩ } = .ret rs s2 ∧
      rs = ([some (⟨1, 1⟩ : Conn), some ⟨0, 0⟩].take 2).map (fun c => (c, none)) ∧
      rs.length = 2 ∧
      (∀ r, r ∈ rs → ∃ c, r = (some c, none) ∧ c.db ∈ [1, 0]) ∧
      s2.pool.channel.closed = true ∧
      s2.pool.conns = [some (⟨1, 1⟩ : Conn), some ⟨0, 0⟩].drop 2 :=
  C6_get_after_close_returns_connection
    { pool := { mu := false, channel := ⟨2, 1, false⟩
                conns := [some ⟨1, 1⟩, some ⟨0, 0⟩], maxConn := 2 }
      world := ⟨2, 2, []⟩ }
    { pool := { mu := false, channel := ⟨2, 1, true⟩
                conns := [some ⟨1, 1⟩, some ⟨0, 0⟩], maxConn := 2 }
      world := ⟨2, 2, [1, 0]⟩ }
    2 rfl (by decide) (by decide)

/-- C7, as the claim states it, fails: on the pool of capacity 1 the second
`Close` panics with "close of closed channel". -/
theorem C7_counterexample :
    cpool.Close
        { pool := { mu := false, channel := ⟨1, 1, false⟩, conns := [some ⟨0, 0⟩], maxConn := 1 }
          world := ⟨1, 1, []⟩ } =
      .ret ()
        { pool := { mu := false, channel := ⟨1, 1, true⟩, conns := [some ⟨0, 0⟩], maxConn := 1 }
          world := ⟨1, 1, [0]⟩ } ∧
    cpool.Close
        { pool := { mu := false, channel := ⟨1, 1, true⟩, conns := [some ⟨0, 0⟩], maxConn := 1 }
          world := ⟨1, 1, [0]⟩ } =
      .panicked .closeOfClosedChannel
        { pool := { mu := false, channel := ⟨1, 1, true⟩, conns := [some ⟨0, 0⟩], maxConn := 1 }
          world := ⟨1, 1, [0]⟩ } := by
  decide

/-- C7, amended: a second `Close` panics at `close(pool.channel)`, before it
destroys anything; at the panic the pool and the log of `db.Close()` calls are
exactly as the first `Close` left them. -/
theorem C7_second_close_panics_without_destroying (s s1 : Sys)
    (hclose : cpool.Close s = .ret () s1) :
    cpool.Close s1 = .panicked .closeOfClosedChannel s1 := by
  obtain ⟨_, hcl, _, _⟩ := cpool.Close_ret s s1 hclose
  simp [cpool.Close, Chan.close, hcl]

theorem C7_witness :
    cpool.Close
        { pool := { mu := false, channel := ⟨2, 1, true⟩, conns := [some ⟨1, 1⟩], maxConn := 2 }
          world := ⟨2, 2, [1]⟩ } =
      .panicked .closeOfClosedChannel
        { pool := { mu := false, channel := ⟨2, 1, true⟩, conns := [some ⟨1, 1⟩], maxConn := 2 }
          world := ⟨2, 2, [1]⟩ } :=
  C7_second_close_panics_without_destroying
    { pool := { mu := false, channel := ⟨2, 1, false⟩, conns := [some ⟨1, 1⟩], maxConn := 2 }
      world := ⟨2, 2, []⟩ }
    { pool := { mu := false, channel := ⟨2, 1, true⟩, conns := [some ⟨1, 1⟩], maxConn := 2 }
      world := ⟨2, 2, [1]⟩ }
    (by decide)

/-- C8, as the claim states it, fails: with capacity 5 and the third
`sql.Open` failing, `NewCPool` does not return at all, it panics in `newConn`
after three `sql.Open` calls and two allocations, and no `db.Close()` has been
called (destroy count 0, not 2). -/
theorem C8_counterexample :
    NewCPool thirdFails 5 World.start =
      .panicked .openFailed { opens := 3, allocs := 2, dbClosed := [] } := by
  decide

/-- C8, amended: for a capacity `n` that `make` accepts, if a `sql.Open` call
made during `NewCPool(n)` fails, the first such being call number `j`
(counting from 0), `newConn` panics and `NewCPool` does not return: there is
neither an error value nor a pool, and the `j` connections created before are
not destroyed (no `db.Close()` call is made). -/
theorem C8_factory_failure_panics (openOk : Nat → Bool) (n : Nat) (w : World) (j : Nat)
    (hcap : makeAccepts n)
    (hj : j < n) (hbefore : ∀ i, i < j → openOk (w.opens + i) = true)
    (hfail : openOk (w.opens + j) = false) :
    NewCPool openOk (n : Int) w =
      .panicked .openFailed
        { opens := w.opens + j + 1, allocs := w.allocs + j, dbClosed := w.dbClosed } := by
  have h1 : ¬ maxAlloc < ptrSize * n := Nat.not_lt.mpr hcap.1
  have h2 : ¬ maxAlloc - hchanSize < 2 * ptrSize * n := Nat.not_lt.mpr hcap.2
  have hl := NewCPool.loop_fail openOk n
    { mu := false, channel := { cap := n, buf := 0, closed := false }, conns := [],
      maxConn := (n : Int) }
    w j rfl (by simp) hj hbefore hfail
  rw [NewCPool_unfold]
  simp only [h1, h2, if_false, hl]

theorem C8_witness :
    NewCPool thirdFails ((5 : Nat) : Int) World.start =
      .panicked .openFailed
        { opens := World.start.opens + 2 + 1, allocs := World.start.allocs + 2,
          dbClosed := World.start.dbClosed } :=
  C8_factory_failure_panics thirdFails 5 World.start 2 (by decide) (by decide) (by decide)
    (by decide)

end ConnectionPooling
